import Mathlib

/-!
Verification of the text-segmentation and counting core of `gator/fragments.py`.

Strings are modelled as `List Char` (Python `str` values restricted to the
characters the program manipulates).  Python's whitespace and line-boundary
character classes are modelled over their full Unicode extent as listed in
CPython's implementation; `str.isalnum` is modelled over the ASCII range.
-/

/-- Python `str.isspace` character class (CPython `Py_UNICODE_ISSPACE`). -/
def pyIsSpace (c : Char) : Bool :=
  let n := c.toNat
  n = 0x20 || (0x9 ≤ n && n ≤ 0xD) || (0x1C ≤ n && n ≤ 0x1F) ||
  n = 0x85 || n = 0xA0 || n = 0x1680 || (0x2000 ≤ n && n ≤ 0x200A) ||
  n = 0x2028 || n = 0x2029 || n = 0x202F || n = 0x205F || n = 0x3000

/-- `FILE_SEPARATOR = "/"` (fragments.py line 8). -/
def FILE_SEPARATOR : List Char := ['/']

/-- `CODE_FENCE_MARKER = "```"` (line 14). -/
def CODE_FENCE_MARKER : List Char := "```".toList

/-- Tail of the sentinel string, i.e. `"ATORGRADER_REPLACEMENT"`. -/
def SENTtail : List Char :=
  ['A', 'T', 'O', 'R', 'G', 'R', 'A', 'D', 'E', 'R', '_',
   'R', 'E', 'P', 'L', 'A', 'C', 'E', 'M', 'E', 'N', 'T']

/-- `GATORGRADER_REPLACEMENT = "GATORGRADER_REPLACEMENT"` (line 15). -/
def GATORGRADER_REPLACEMENT : List Char := 'G' :: SENTtail

/-- `SECTION_MARKER = "#"` (line 17). -/
def SECTION_MARKER : List Char := ['#']

/-- Python `str.strip()` with no argument: remove leading and trailing
whitespace. -/
def pyStrip (s : List Char) : List Char :=
  ((s.dropWhile pyIsSpace).reverse.dropWhile pyIsSpace).reverse

/-- `is_paragraph` (lines 26-40): strip the candidate, reject it when it
starts with the section marker or the code-fence marker. -/
def is_paragraph (candidate : List Char) : Bool :=
  let c := pyStrip candidate
  if SECTION_MARKER.isPrefixOf c then false
  else if CODE_FENCE_MARKER.isPrefixOf c then false
  else true

/-- `contents.replace(DOUBLE_NEWLINE, GATORGRADER_REPLACEMENT)` (line 49):
Python `str.replace` scans left to right; on a match it consumes the whole
pattern, otherwise it moves one character. -/
def replaceDoubleNL : List Char → List Char
  | [] => []
  | [c] => [c]
  | c :: d :: rest =>
    if c = '\n' ∧ d = '\n' then GATORGRADER_REPLACEMENT ++ replaceDoubleNL rest
    else c :: replaceDoubleNL (d :: rest)

/-- The character map of `contents.replace(NEWLINE, SPACE)` (line 50). -/
def nlToSpace (c : Char) : Char := if c = '\n' then ' ' else c

/-- `contents.replace(GATORGRADER_REPLACEMENT, DOUBLE_NEWLINE)` (line 51),
written with an explicit skip counter so that the recursion is structural:
state `0` scans for the sentinel, state `n+1` is still consuming a match. -/
def restoreGo : Nat → List Char → List Char
  | _, [] => []
  | 0, c :: rest =>
    if GATORGRADER_REPLACEMENT.isPrefixOf (c :: rest) then
      '\n' :: '\n' :: restoreGo 22 rest
    else c :: restoreGo 0 rest
  | Nat.succ n, _ :: rest => restoreGo n rest

/-- `contents.replace(GATORGRADER_REPLACEMENT, DOUBLE_NEWLINE)` (line 51). -/
def restoreSentinel (s : List Char) : List Char := restoreGo 0 s

/-- `re.findall` for the pattern `(.+?\n\n|.+?$)` (lines 16 and 52-53),
as a left-to-right scanner.  `acc` is the reversed run of non-newline
characters read since the last match / skipped newline.  A run followed by
a double newline matches the first alternative (keeping the two newlines);
a run reaching the end of input, or stopping just before a final lone
newline, matches `.+?$`; a run followed by a single interior newline can
match neither alternative and is abandoned. -/
def findParasGo : List Char → List Char → List (List Char)
  | acc, [] => if acc.isEmpty then [] else [acc.reverse]
  | acc, [c] =>
    if c = '\n' then (if acc.isEmpty then [] else [acc.reverse])
    else [(c :: acc).reverse]
  | acc, c :: d :: rest =>
    if c = '\n' then
      if d = '\n' then
        if acc.isEmpty then findParasGo [] rest
        else (acc.reverse ++ ['\n', '\n']) :: findParasGo [] rest
      else findParasGo [] (d :: rest)
    else findParasGo (c :: acc) (d :: rest)

/-- `get_paragraphs` (lines 43-61). -/
def get_paragraphs (contents : List Char) (blank_replace : Bool) : List (List Char) :=
  let c1 := if blank_replace then contents.filter (fun ch => ch != ' ') else contents
  let c2 := replaceDoubleNL c1
  let c3 := List.map nlToSpace c2
  let c4 := restoreSentinel c3
  (findParasGo [] c4).filter (fun p => is_paragraph p)

/-- Python `str.splitlines(keepends=False)` over the CPython line-boundary
class, with `"\r\n"` treated as a single boundary; no segment is produced
after a terminating boundary. -/
def isLineBreakChar (c : Char) : Bool :=
  let n := c.toNat
  n = 0xA || n = 0xB || n = 0xC || n = 0xD || n = 0x1C || n = 0x1D ||
  n = 0x1E || n = 0x85 || n = 0x2028 || n = 0x2029

/-- Worker for `str.splitlines`: `acc` is the reversed current segment. -/
def pySplitlinesGo : List Char → List Char → List (List Char)
  | acc, [] => if acc.isEmpty then [] else [acc.reverse]
  | acc, [c] => if isLineBreakChar c then [acc.reverse] else [(c :: acc).reverse]
  | acc, c :: d :: rest =>
    if c = '\r' ∧ d = '\n' then acc.reverse :: pySplitlinesGo [] rest
    else if isLineBreakChar c then acc.reverse :: pySplitlinesGo [] (d :: rest)
    else pySplitlinesGo (c :: acc) (d :: rest)

/-- Python `str.splitlines(keepends=False)`. -/
def pySplitlines (s : List Char) : List (List Char) := pySplitlinesGo [] s

/-- Python `str.isspace()`: nonempty and all whitespace. -/
def pyIsspaceStr (l : List Char) : Bool := !l.isEmpty && l.all pyIsSpace

/-- `is_blank_line` (lines 83-87); `line is NOTHING` is CPython identity
with the interned empty string, modelled as equality with `[]`. -/
def is_blank_line (line : List Char) : Bool :=
  if line ≠ [] ∧ pyIsspaceStr line = false then false else true

/-- `get_line_list` (lines 64-80); the `line.decode()` attempt always raises
`AttributeError` on `str` lines, so the loop keeps each non-blank line. -/
def get_line_list (content : List Char) : List (List Char) :=
  (pySplitlines content).filter (fun l => !(is_blank_line l))

/-- `count_paragraphs` (lines 90-94). -/
def count_paragraphs (contents : List Char) : Nat :=
  (get_paragraphs contents true).length

/-- ASCII model of Python `ch.isalnum()`. -/
def pyIsAlnum (c : Char) : Bool := c.isAlphanum

/-- The token list of one paragraph inside `count_words` (lines 105-106):
replace newlines by spaces, replace non-alphanumeric characters by spaces,
then `str.split()` on whitespace runs. -/
def splitWsGo : List Char → List Char → List (List Char)
  | acc, [] => if acc.isEmpty then [] else [acc.reverse]
  | acc, c :: rest =>
    if pyIsSpace c then
      (if acc.isEmpty then splitWsGo [] rest else acc.reverse :: splitWsGo [] rest)
    else splitWsGo (c :: acc) rest

/-- Python `str.split()` with no argument. -/
def pySplitWs (s : List Char) : List (List Char) := splitWsGo [] s

/-- Words of one paragraph as computed by `count_words` (lines 105-106). -/
def wordTokens (para : List Char) : List (List Char) :=
  pySplitWs ((para.map nlToSpace).map (fun ch => if pyIsAlnum ch then ch else ' '))

/-- `count_words` (lines 97-112): minimum token count over the surviving
paragraphs, `0` when there are none; Python `min` on a nonempty list is a
left fold of binary `min` over its head and tail. -/
def count_words (contents : List Char) : Nat :=
  let paragraphs := get_paragraphs contents false
  let word_counts := paragraphs.map (fun para => (wordTokens para).length)
  match word_counts with
  | [] => 0
  | w :: ws => ws.foldl Nat.min w

/-- Worker for Python `str.count` (non-overlapping, left to right): state
`0` scans, state `n+1` is still consuming a previous match. -/
def countGo (f : List Char) : List Char → Nat → Nat
  | [], _ => 0
  | _ :: rest, Nat.succ n => countGo f rest n
  | c :: rest, 0 =>
    if f.isPrefixOf (c :: rest) then 1 + countGo f rest (f.length - 1)
    else countGo f rest 0

/-- `count_specified_fragment` (lines 115-118), i.e. Python
`contents.count(fragment)`; CPython returns `len(contents) + 1` for an
empty fragment. -/
def count_specified_fragment (contents fragment : List Char) : Nat :=
  match fragment with
  | [] => contents.length + 1
  | _ :: _ => countGo fragment contents 0

/-- Abstract file system: a path resolves to the text of an existing file
or to `none`.  `Path(...).is_file()` is `isSome`, `read_text()` is the
stored text. -/
def FsModel : Type := List Char → Option (List Char)

/-- `count_fragments` (lines 141-158). -/
def count_fragments (fs : FsModel) (chosen_fragment : List Char)
    (checking_function : List Char → List Char → Nat)
    (given_file containing_directory contents : List Char) : Nat :=
  let file_for_checking := fs (containing_directory ++ FILE_SEPARATOR ++ given_file)
  if file_for_checking.isSome = false ∧ contents ≠ [] then
    checking_function contents chosen_fragment
  else if file_for_checking.isSome = true ∧ contents = [] then
    checking_function (file_for_checking.getD []) chosen_fragment
  else 0

/-- `count_lines` (lines 177-190). -/
def count_lines (fs : FsModel)
    (given_file containing_directory contents : List Char) : Nat :=
  let file_for_checking := fs (containing_directory ++ FILE_SEPARATOR ++ given_file)
  if file_for_checking.isSome = false ∧ contents ≠ [] then
    (get_line_list contents).length
  else if file_for_checking.isSome = true ∧ contents = [] then
    (get_line_list (file_for_checking.getD [])).length
  else 0

/-- Spec-side line filter: split on line boundaries, drop every line that
is empty or consists only of whitespace (spec 4.1 / 8). -/
def specLineList (c : List Char) : List (List Char) :=
  (pySplitlines c).filter (fun l => !(l.isEmpty || l.all pyIsSpace))

/-- The token counts of the surviving paragraphs, in source order
(spec 4.4, `countWords`). -/
def specWordCounts (c : List Char) : List Nat :=
  (get_paragraphs c false).map (fun p => (wordTokens p).length)

/-- Index of the first occurrence of `f` in `s`, if any. -/
def firstOcc : List Char → List Char → Option Nat
  | [], _ => none
  | c :: rest, f =>
    if f.isPrefixOf (c :: rest) then some 0
    else (firstOcc rest f).map (fun i => i + 1)

/-- Spec-side non-overlapping occurrence counting by repeatedly taking the
first occurrence and skipping past it. -/
def specCountGo (a : Char) (f : List Char) (s : List Char) : Nat :=
  if h : (firstOcc s (a :: f)).isSome then
    1 + specCountGo a f (s.drop ((firstOcc s (a :: f)).get h + (a :: f).length))
  else 0
termination_by s.length
decreasing_by
  have hs : s ≠ [] := by
    intro he
    subst he
    simp [firstOcc] at h
  have hpos : 0 < s.length := List.length_pos.mpr hs
  have hd := List.length_drop ((firstOcc s (a :: f)).get h + (a :: f).length) s
  have hlen : (a :: f).length = f.length + 1 := by simp
  omega

/-- Spec-side fragment count: the number of non-overlapping occurrences of
`f` in `s` under the standard left-to-right convention (spec 4.4,
`countFragment`); the empty fragment occurs at every boundary. -/
def specCount (s f : List Char) : Nat :=
  match f with
  | [] => s.length + 1
  | a :: f' => specCountGo a f' s

/-- `true` iff no double newline occurs in the string. -/
def dnlFree : List Char → Bool
  | [] => true
  | [_] => true
  | c :: d :: rest => if c = '\n' ∧ d = '\n' then false else dnlFree (d :: rest)

/-- `true` iff the sentinel string occurs nowhere in the string. -/
def sentFree : List Char → Bool
  | [] => true
  | c :: rest => !(GATORGRADER_REPLACEMENT.isPrefixOf (c :: rest)) && sentFree rest

/-- The newline normalization of `get_paragraphs` lines 49-51 taken as one
function: sentinel protection, newline-to-space, sentinel restoration. -/
def normalizeNewlines (s : List Char) : List Char :=
  restoreSentinel (List.map nlToSpace (replaceDoubleNL s))

/-- The normalization the spec describes for lines 49-51: a direct scanner
that keeps each left-to-right pair of consecutive newlines and turns each
remaining single newline into a space, leaving everything else unchanged
(spec 4.2 steps 2-4 and the design note of spec 9). -/
def directNormalize : List Char → List Char
  | [] => []
  | [c] => if c = '\n' then [' '] else [c]
  | c :: d :: rest =>
    if c = '\n' then
      if d = '\n' then '\n' :: '\n' :: directNormalize rest
      else ' ' :: directNormalize (d :: rest)
    else c :: directNormalize (d :: rest)

/-- A file system on which `"d/f"` is a file with three non-blank lines. -/
def fsBoth : FsModel :=
  fun p => if p = "d/f".toList then some "x\ny\nz".toList else none

/-! ### Helper lemmas -/

theorem countGo_skip (f : List Char) :
    ∀ (s : List Char) (n : Nat), countGo f s n = countGo f (s.drop n) 0
  | [], n => by cases n <;> simp [countGo]
  | _ :: _, 0 => by simp
  | c :: rest, Nat.succ m => by
    have ih := countGo_skip f rest m
    simpa [countGo] using ih

theorem countGo_none (f : List Char) :
    ∀ s : List Char, firstOcc s f = none → countGo f s 0 = 0
  | [], _ => by simp [countGo]
  | c :: rest, h => by
    rw [firstOcc] at h
    by_cases hp : f.isPrefixOf (c :: rest)
    · simp [hp] at h
    · rw [if_neg hp] at h
      have h' : firstOcc rest f = none := by
        cases hfo : firstOcc rest f with
        | none => rfl
        | some j => rw [hfo] at h; simp at h
      simp [countGo, hp]
      exact countGo_none f rest h'

theorem countGo_some (f : List Char) (hf : f ≠ []) :
    ∀ (s : List Char) (i : Nat), firstOcc s f = some i →
      countGo f s 0 = 1 + countGo f (s.drop (i + f.length)) 0
  | [], i, h => by simp [firstOcc] at h
  | c :: rest, i, h => by
    obtain ⟨a, f', rfl⟩ : ∃ a f', f = a :: f' := by
      cases f with
      | nil => exact absurd rfl hf
      | cons a f' => exact ⟨a, f', rfl⟩
    rw [firstOcc] at h
    by_cases hp : (a :: f').isPrefixOf (c :: rest)
    · rw [if_pos hp] at h
      have hi : i = 0 := by simpa using h.symm
      subst hi
      rw [countGo, if_pos hp, countGo_skip]
      simp
    · rw [if_neg hp] at h
      obtain ⟨j, hj, hji⟩ := Option.map_eq_some'.mp h
      rw [countGo, if_neg hp, countGo_some (a :: f') hf rest j hj]
      have : i + (a :: f').length = (j + (a :: f').length) + 1 := by omega
      rw [this]
      simp

theorem countGo_eq_spec (a : Char) (f : List Char) (s : List Char) :
    countGo (a :: f) s 0 = specCountGo a f s := by
  cases hfo : firstOcc s (a :: f) with
  | none =>
    rw [countGo_none _ _ hfo, specCountGo.eq_def]
    simp [hfo]
  | some i =>
    rw [countGo_some (a :: f) (by simp) s i hfo, specCountGo.eq_def]
    simp only [hfo, Option.isSome_some, dite_true, Option.get_some]
    have := countGo_eq_spec a f (s.drop (i + (a :: f).length))
    omega
termination_by s.length
decreasing_by
  have hs : s ≠ [] := by
    intro he
    subst he
    simp [firstOcc] at hfo
  have hpos : 0 < s.length := List.length_pos.mpr hs
  have hd := List.length_drop (i + (a :: f).length) s
  have hlen : (a :: f).length = f.length + 1 := by simp
  omega

theorem foldlMin_le :
    ∀ (ws : List Nat) (w : Nat),
      ws.foldl Nat.min w ≤ w ∧ ∀ n ∈ ws, ws.foldl Nat.min w ≤ n
  | [], w => by simp
  | x :: xs, w => by
    obtain ⟨h1, h2⟩ := foldlMin_le xs (Nat.min w x)
    refine ⟨le_trans h1 (Nat.min_le_left _ _), ?_⟩
    intro n hn
    rcases List.mem_cons.mp hn with rfl | hn
    · exact le_trans h1 (Nat.min_le_right _ _)
    · exact h2 n hn

theorem foldlMin_mem :
    ∀ (ws : List Nat) (w : Nat),
      ws.foldl Nat.min w = w ∨ ws.foldl Nat.min w ∈ ws
  | [], _ => Or.inl rfl
  | x :: xs, w => by
    rcases foldlMin_mem xs (Nat.min w x) with h | h
    · rcases Nat.le_total w x with hwx | hxw
      · left
        rw [List.foldl_cons, h]
        exact Nat.min_eq_left hwx
      · right
        have hx : w.min x = x := Nat.min_eq_right hxw
        rw [List.foldl_cons, h, hx]
        exact List.mem_cons_self x xs
    · right
      exact List.mem_cons_of_mem x h

theorem count_words_eq (c : List Char) :
    count_words c =
      match specWordCounts c with
      | [] => 0
      | w :: ws => ws.foldl Nat.min w := rfl

theorem blank_line_spec (l : List Char) :
    is_blank_line l = (l.isEmpty || l.all pyIsSpace) := by
  cases l with
  | nil => simp [is_blank_line]
  | cons a t =>
    by_cases h : pyIsspaceStr (a :: t) = true
    · simp [is_blank_line, h]
      simpa [pyIsspaceStr] using h
    · have h' : pyIsspaceStr (a :: t) = false := by
        simpa using h
      simp [is_blank_line, h']
      simpa [pyIsspaceStr] using h'

theorem singletonPrefixIffHead (a : Char) (l : List Char) :
    ([a].isPrefixOf l = true) ↔ l.head? = some a := by
  cases l with
  | nil => simp [List.isPrefixOf]
  | cons b t =>
    simp [List.isPrefixOf]
    constructor
    · intro h; simp [h]
    · intro h; simp [h]

theorem count_words_nil (c : List Char) (h : specWordCounts c = []) :
    count_words c = 0 := by
  rw [count_words_eq c, h]

theorem count_words_cons (c : List Char) (w : Nat) (ws : List Nat)
    (h : specWordCounts c = w :: ws) :
    count_words c = ws.foldl Nat.min w := by
  rw [count_words_eq c, h]

theorem count_lines_contents (fs : FsModel) (gf cd c : List Char)
    (h : fs (cd ++ FILE_SEPARATOR ++ gf) = none) (hc : c ≠ []) :
    count_lines fs gf cd c = (get_line_list c).length := by
  simp only [count_lines, h, Option.isSome_none]
  rw [if_pos ⟨by trivial, hc⟩]

theorem count_lines_neither_a (fs : FsModel) (gf cd : List Char)
    (h : fs (cd ++ FILE_SEPARATOR ++ gf) = none) :
    count_lines fs gf cd [] = 0 := by
  simp only [count_lines, h, Option.isSome_none]
  rw [if_neg (fun hcon => hcon.2 rfl), if_neg (fun hcon => by simpa using hcon.1)]

theorem count_lines_neither_b (fs : FsModel) (gf cd c : List Char)
    (h : (fs (cd ++ FILE_SEPARATOR ++ gf)).isSome = true) (hc : c ≠ []) :
    count_lines fs gf cd c = 0 := by
  have c1 : ¬ ((fs (cd ++ FILE_SEPARATOR ++ gf)).isSome = false ∧ c ≠ []) := by
    intro hcon
    rw [h] at hcon
    exact absurd hcon.1 (by simp)
  have c2 : ¬ ((fs (cd ++ FILE_SEPARATOR ++ gf)).isSome = true ∧ c = []) :=
    fun hcon => hc hcon.2
  simp only [count_lines]
  rw [if_neg c1, if_neg c2]

theorem count_fragments_neither_a (fs : FsModel) (frag : List Char)
    (chk : List Char → List Char → Nat) (gf cd : List Char)
    (h : fs (cd ++ FILE_SEPARATOR ++ gf) = none) :
    count_fragments fs frag chk gf cd [] = 0 := by
  simp only [count_fragments, h, Option.isSome_none]
  rw [if_neg (fun hcon => hcon.2 rfl), if_neg (fun hcon => by simpa using hcon.1)]

theorem count_fragments_neither_b (fs : FsModel) (frag : List Char)
    (chk : List Char → List Char → Nat) (gf cd c : List Char)
    (h : (fs (cd ++ FILE_SEPARATOR ++ gf)).isSome = true) (hc : c ≠ []) :
    count_fragments fs frag chk gf cd c = 0 := by
  have c1 : ¬ ((fs (cd ++ FILE_SEPARATOR ++ gf)).isSome = false ∧ c ≠ []) := by
    intro hcon
    rw [h] at hcon
    exact absurd hcon.1 (by simp)
  have c2 : ¬ ((fs (cd ++ FILE_SEPARATOR ++ gf)).isSome = true ∧ c = []) :=
    fun hcon => hc hcon.2
  simp only [count_fragments]
  rw [if_neg c1, if_neg c2]

/-! ### Claim theorems (first group) -/

/-- Claim C9: for every contents string and every fragment string,
`count_specified_fragment` returns the number of non-overlapping
occurrences of the fragment in the contents (left-to-right, skipping past
each match), and in particular counting "aa" in "aaa" yields 1 and in
"aaaa" yields 2. -/
theorem claim_C9 :
    (∀ s f : List Char, count_specified_fragment s f = specCount s f) ∧
    count_specified_fragment "aaa".toList "aa".toList = 1 ∧
    count_specified_fragment "aaaa".toList "aa".toList = 2 := by
  refine ⟨fun s f => ?_, by decide, by decide⟩
  cases f with
  | nil => rfl
  | cons a f' => exact countGo_eq_spec a f' s

/-- Claim C3: `count_words` is the minimum of the token counts of the
surviving paragraphs (0 when there are none), and on
"Hello world.\n\nOne two three four." it returns 2, not the total 6. -/
theorem claim_C3 :
    (∀ c : List Char,
      (specWordCounts c = [] → count_words c = 0) ∧
      (∀ n ∈ specWordCounts c, count_words c ≤ n) ∧
      (specWordCounts c ≠ [] → count_words c ∈ specWordCounts c)) ∧
    count_words "Hello world.\n\nOne two three four.".toList = 2 := by
  refine ⟨fun c => ?_, by decide⟩
  cases h : specWordCounts c with
  | nil => exact ⟨fun _ => count_words_nil c h, by simp, by simp⟩
  | cons w ws =>
    have hcw : count_words c = ws.foldl Nat.min w := count_words_cons c w ws h
    refine ⟨by simp, ?_, fun _ => ?_⟩
    · intro n hn
      rw [hcw]
      rcases List.mem_cons.mp hn with rfl | hn
      · exact (foldlMin_le ws n).1
      · exact (foldlMin_le ws w).2 n hn
    · rw [hcw]
      rcases foldlMin_mem ws w with he | he
      · rw [he]
        exact List.mem_cons_self w ws
      · exact List.mem_cons_of_mem w he

/-- Witness for C3 at the spec's own example: the paragraph list is
nonempty there and the returned count is one of the paragraph counts. -/
theorem claim_C3_witness :
    count_words "Hello world.\n\nOne two three four.".toList ∈
      specWordCounts "Hello world.\n\nOne two three four.".toList :=
  (claim_C3.1 _).2.2 (by decide)

/-- Claim C4: the wrapped two-paragraph example segments into exactly 2
paragraphs, and the first paragraph "This is one paragraph that wraps."
counts as a single six-word run (single newlines became spaces). -/
theorem claim_C4 :
    count_paragraphs "This is one\nparagraph that\nwraps.\n\nSecond one.".toList = 2 ∧
    specWordCounts "This is one\nparagraph that\nwraps.\n\nSecond one.".toList = [6, 2] := by
  decide

/-- Claim C8: the counting functions are total in this embedding; on empty
content the segmenter produces no candidate (under either flag), so the
paragraph and word counts are 0, and whitespace-only content also counts
0; fragment and line counting handle empty input. -/
theorem claim_C8 :
    get_paragraphs [] true = [] ∧ get_paragraphs [] false = [] ∧
    count_paragraphs [] = 0 ∧ count_words [] = 0 ∧
    count_paragraphs " ".toList = 0 ∧ count_words " ".toList = 0 ∧
    count_paragraphs "\n\n".toList = 0 ∧
    count_specified_fragment [] "a".toList = 0 ∧
    count_lines (fun _ => none) [] [] [] = 0 := by
  decide

/-- Claim C5: `is_paragraph` rejects a candidate exactly when the stripped
candidate starts with a section marker `#` or with the three-backtick code
fence marker. -/
theorem claim_C5 (candidate : List Char) :
    is_paragraph candidate = false ↔
      ((pyStrip candidate).head? = some '#' ∨
        CODE_FENCE_MARKER.isPrefixOf (pyStrip candidate) = true) := by
  rw [is_paragraph]
  by_cases h1 : SECTION_MARKER.isPrefixOf (pyStrip candidate)
  · have hh : (pyStrip candidate).head? = some '#' :=
      (singletonPrefixIffHead '#' (pyStrip candidate)).mp h1
    simp [h1, hh]
  · by_cases h2 : CODE_FENCE_MARKER.isPrefixOf (pyStrip candidate)
    · simp [h1, h2]
    · have hh : ¬ (pyStrip candidate).head? = some '#' := fun hc =>
        h1 ((singletonPrefixIffHead '#' (pyStrip candidate)).mpr hc)
      simp [h1, h2, hh]

/-- Claim C6: on literal contents (no file present) `count_lines` counts
the lines left after removing blank lines, and `get_line_list` is exactly
the ordered filtered line list. -/
theorem claim_C6 (fs : FsModel) (gf cd c : List Char)
    (h : fs (cd ++ FILE_SEPARATOR ++ gf) = none) :
    count_lines fs gf cd c = (specLineList c).length ∧
    get_line_list c = specLineList c := by
  have hfmt : get_line_list c = specLineList c := by
    rw [get_line_list, specLineList]
    apply List.filter_congr
    intro l _
    rw [blank_line_spec l]
  refine ⟨?_, hfmt⟩
  by_cases hc : c = []
  · subst hc
    rw [count_lines_neither_a fs gf cd h]
    decide
  · rw [count_lines_contents fs gf cd c h hc, hfmt]

/-- Witness for C6 on a concrete file-less call with blank-line content. -/
theorem claim_C6_witness :
    count_lines (fun _ => none) ['f'] ['d'] "a\n\n b\n".toList =
      (specLineList "a\n\n b\n".toList).length ∧
    get_line_list "a\n\n b\n".toList = specLineList "a\n\n b\n".toList :=
  claim_C6 (fun _ => none) ['f'] ['d'] "a\n\n b\n".toList rfl

/-- Claim C10: whenever neither selection branch applies (missing file with
empty contents sentinel, or existing file together with non-empty
contents), `count_lines` and `count_fragments` return 0. -/
theorem claim_C10 (fs : FsModel) (frag : List Char)
    (chk : List Char → List Char → Nat) (gf cd contents : List Char)
    (h : (fs (cd ++ FILE_SEPARATOR ++ gf) = none ∧ contents = []) ∨
      ((fs (cd ++ FILE_SEPARATOR ++ gf)).isSome = true ∧ contents ≠ [])) :
    count_lines fs gf cd contents = 0 ∧
    count_fragments fs frag chk gf cd contents = 0 := by
  rcases h with ⟨h1, h2⟩ | ⟨h1, h2⟩
  · subst h2
    exact ⟨count_lines_neither_a fs gf cd h1,
      count_fragments_neither_a fs frag chk gf cd h1⟩
  · exact ⟨count_lines_neither_b fs gf cd contents h1 h2,
      count_fragments_neither_b fs frag chk gf cd contents h1 h2⟩

/-- Witness for C10: a missing file and no contents yield counts of 0. -/
theorem claim_C10_witness :
    count_lines (fun _ => none) ['f'] ['d'] [] = 0 ∧
    count_fragments (fun _ => none) ['a'] count_specified_fragment ['f'] ['d'] [] = 0 :=
  claim_C10 (fun _ => none) ['a'] count_specified_fragment ['f'] ['d'] []
    (Or.inl ⟨rfl, rfl⟩)

/-- Counterexample to claim C2 as stated: on a file system where "d/f"
exists with three non-blank lines, calling with non-empty literal contents
does NOT return the file's counts (it returns 0 instead). -/
theorem claim_C2_counterexample :
    ¬ (count_lines fsBoth "f".toList "d".toList "a".toList
        = (get_line_list ((fsBoth ("d".toList ++ FILE_SEPARATOR ++ "f".toList)).getD [])).length) ∧
    ¬ (count_fragments fsBoth "x".toList count_specified_fragment
          "f".toList "d".toList "a".toList
        = count_specified_fragment
            ((fsBoth ("d".toList ++ FILE_SEPARATOR ++ "f".toList)).getD []) "x".toList) := by
  decide

/-- Claim C2 amended: when both text sources are present (the file exists
and non-empty literal contents are supplied), `count_fragments` and
`count_lines` use neither source and return 0. -/
theorem claim_C2_amended (fs : FsModel) (frag : List Char)
    (chk : List Char → List Char → Nat) (gf cd contents : List Char)
    (h1 : (fs (cd ++ FILE_SEPARATOR ++ gf)).isSome = true)
    (h2 : contents ≠ []) :
    count_fragments fs frag chk gf cd contents = 0 ∧
    count_lines fs gf cd contents = 0 :=
  ⟨count_fragments_neither_b fs frag chk gf cd contents h1 h2,
    count_lines_neither_b fs gf cd contents h1 h2⟩

/-- Witness for the amended C2 on the concrete both-present file system. -/
theorem claim_C2_witness :
    count_fragments fsBoth "x".toList count_specified_fragment
      "f".toList "d".toList "a".toList = 0 ∧
    count_lines fsBoth "f".toList "d".toList "a".toList = 0 :=
  claim_C2_amended fsBoth "x".toList count_specified_fragment
    "f".toList "d".toList "a".toList (by decide) (by decide)

/-! ### Sentinel machinery for the newline normalization (C1, C7) -/

theorem mapSENT : List.map nlToSpace GATORGRADER_REPLACEMENT = GATORGRADER_REPLACEMENT := by
  decide

theorem prefixOfAppendSelf : ∀ (t X : List Char), t.isPrefixOf (t ++ X) = true
  | [], _ => by simp [List.isPrefixOf]
  | a :: t', X => by
    simp only [List.cons_append, List.isPrefixOf, Bool.and_eq_true]
    exact ⟨by simp, prefixOfAppendSelf t' X⟩

theorem prefixShrink : ∀ (t u X : List Char), t.length ≤ u.length →
    t.isPrefixOf (u ++ X) = true → t.isPrefixOf u = true
  | [], _, _, _, _ => by simp [List.isPrefixOf]
  | a :: t', [], X, hlen, _ => by simp at hlen
  | a :: t', b :: u', X, hlen, hp => by
    simp only [List.cons_append, List.isPrefixOf, Bool.and_eq_true] at hp ⊢
    exact ⟨hp.1, prefixShrink t' u' X (by simpa using hlen) hp.2⟩

theorem restoreGo_skipAll : ∀ (u Z : List Char), restoreGo u.length (u ++ Z) = restoreGo 0 Z
  | [], Z => rfl
  | a :: u', Z => by
    simp only [List.length_cons, List.cons_append, restoreGo]
    exact restoreGo_skipAll u' Z

theorem restoreSent_append (Z : List Char) :
    restoreSentinel (GATORGRADER_REPLACEMENT ++ Z) = '\n' :: '\n' :: restoreSentinel Z := by
  have hp : GATORGRADER_REPLACEMENT.isPrefixOf ('G' :: (SENTtail ++ Z)) = true :=
    prefixOfAppendSelf GATORGRADER_REPLACEMENT Z
  show restoreGo 0 ('G' :: (SENTtail ++ Z)) = _
  simp only [restoreGo, hp, if_true]
  rfl

theorem restoreSentinel_cons (x : Char) (W : List Char)
    (h : GATORGRADER_REPLACEMENT.isPrefixOf (x :: W) = false) :
    restoreSentinel (x :: W) = x :: restoreSentinel W := by
  show restoreGo 0 (x :: W) = _
  simp only [restoreGo, h]
  rw [if_neg (by simp)]
  rfl

theorem sentFree_parts (c : Char) (rest : List Char) (h : sentFree (c :: rest) = true) :
    GATORGRADER_REPLACEMENT.isPrefixOf (c :: rest) = false ∧ sentFree rest = true := by
  simp only [sentFree, Bool.and_eq_true, Bool.not_eq_true'] at h
  exact h

theorem restore_id : ∀ w : List Char, sentFree w = true → restoreSentinel w = w
  | [], _ => rfl
  | c :: rest, h => by
    obtain ⟨h1, h2⟩ := sentFree_parts c rest h
    rw [restoreSentinel_cons c rest h1]
    exact congrArg (c :: ·) (restore_id rest h2)

theorem mapPrefixTransfer : ∀ (t s : List Char),
    t.all (fun ch => !(ch = ' ')) = true →
    t.isPrefixOf (List.map nlToSpace s) = true → t.isPrefixOf s = true
  | [], _, _, _ => by simp [List.isPrefixOf]
  | a :: t', [], _, hp => by simp [List.isPrefixOf] at hp
  | a :: t', b :: s', hall, hp => by
    simp only [List.map_cons, List.isPrefixOf, Bool.and_eq_true, beq_iff_eq] at hp ⊢
    obtain ⟨ha, hp'⟩ := hp
    simp only [List.all_cons, Bool.and_eq_true, Bool.not_eq_true', decide_eq_false_iff_not] at hall
    have hb : nlToSpace b = b := by
      by_cases hbn : b = '\n'
      · subst hbn
        rw [ha] at hall
        exact absurd rfl hall.1
      · simp [nlToSpace, hbn]
    rw [hb] at ha
    refine ⟨ha, mapPrefixTransfer t' s' ?_ hp'⟩
    simp only [List.all_eq_true] at hall ⊢
    intro x hx
    exact hall.2 x hx

theorem sentFree_map : ∀ s : List Char, sentFree s = true →
    sentFree (List.map nlToSpace s) = true
  | [], _ => rfl
  | c :: rest, h => by
    obtain ⟨h1, h2⟩ := sentFree_parts c rest h
    have hall : GATORGRADER_REPLACEMENT.all (fun ch => !(ch = ' ')) = true := by decide
    simp only [List.map_cons, sentFree, Bool.and_eq_true, Bool.not_eq_true']
    constructor
    · cases hcon : GATORGRADER_REPLACEMENT.isPrefixOf (nlToSpace c :: List.map nlToSpace rest) with
      | false => rfl
      | true =>
        have hm : GATORGRADER_REPLACEMENT.isPrefixOf (List.map nlToSpace (c :: rest)) = true := by
          simpa using hcon
        have := mapPrefixTransfer GATORGRADER_REPLACEMENT (c :: rest) hall hm
        rw [this] at h1
        exact h1
    · exact sentFree_map rest h2

theorem dnl_id : ∀ s : List Char, dnlFree s = true → replaceDoubleNL s = s
  | [], _ => rfl
  | [c], _ => rfl
  | c :: d :: rest, h => by
    simp only [dnlFree] at h
    by_cases hcd : c = '\n' ∧ d = '\n'
    · rw [if_pos hcd] at h
      exact absurd h (by simp)
    · rw [if_neg hcd] at h
      simp only [replaceDoubleNL, if_neg hcd]
      exact congrArg (c :: ·) (dnl_id (d :: rest) h)

theorem midTransfer : ∀ (s t : List Char), t ≠ [] →
    t.length < GATORGRADER_REPLACEMENT.length →
    t.all (fun ch => !(ch = ' ')) = true →
    (t.tails.all fun u => u.isEmpty || !(u.isPrefixOf GATORGRADER_REPLACEMENT)) = true →
    t.isPrefixOf (List.map nlToSpace (replaceDoubleNL s)) = true →
    t.isPrefixOf s = true
  | [], t, ht, _, _, _, hp => by
    cases t with
    | nil => exact absurd rfl ht
    | cons a t' => simp [List.isPrefixOf] at hp
  | [c], t, ht, hlen, hall, htails, hp => by
    cases t with
    | nil => exact absurd rfl ht
    | cons a t' =>
      simp only [replaceDoubleNL, List.map_cons, List.map_nil, List.isPrefixOf,
        Bool.and_eq_true, beq_iff_eq] at hp
      obtain ⟨ha, hp'⟩ := hp
      have ht' : t' = [] := by
        cases t' with
        | nil => rfl
        | cons b t'' => simp [List.isPrefixOf] at hp'
      subst ht'
      simp only [List.all_cons, Bool.and_eq_true, Bool.not_eq_true',
        decide_eq_false_iff_not] at hall
      have hc : nlToSpace c = c := by
        by_cases hcn : c = '\n'
        · subst hcn
          rw [ha] at hall
          exact absurd rfl hall.1
        · simp [nlToSpace, hcn]
      rw [hc] at ha
      subst ha
      simp [List.isPrefixOf]
  | c :: d :: rest, t, ht, hlen, hall, htails, hp => by
    by_cases hcd : c = '\n' ∧ d = '\n'
    · obtain ⟨rfl, rfl⟩ := hcd
      rw [replaceDoubleNL, if_pos (by simp)] at hp
      rw [List.map_append, mapSENT] at hp
      have hps : t.isPrefixOf GATORGRADER_REPLACEMENT = true :=
        prefixShrink t GATORGRADER_REPLACEMENT _ (Nat.le_of_lt hlen) hp
      cases t with
      | nil => exact absurd rfl ht
      | cons a t' =>
        rw [List.tails_cons, List.all_cons] at htails
        simp only [Bool.and_eq_true] at htails
        have hhead := htails.1
        rw [hps] at hhead
        simp at hhead
    · rw [replaceDoubleNL, if_neg hcd] at hp
      cases t with
      | nil => exact absurd rfl ht
      | cons a t' =>
        simp only [List.map_cons, List.isPrefixOf, Bool.and_eq_true, beq_iff_eq] at hp
        obtain ⟨ha, hp'⟩ := hp
        simp only [List.all_cons, Bool.and_eq_true, Bool.not_eq_true',
          decide_eq_false_iff_not] at hall
        have hc : nlToSpace c = c := by
          by_cases hcn : c = '\n'
          · subst hcn
            rw [ha] at hall
            exact absurd rfl hall.1
          · simp [nlToSpace, hcn]
        rw [hc] at ha
        subst ha
        cases t' with
        | nil => simp [List.isPrefixOf]
        | cons b t'' =>
          have hrec : (b :: t'').isPrefixOf (d :: rest) = true := by
            refine midTransfer (d :: rest) (b :: t'') (by simp) ?_ ?_ ?_ hp'
            · exact Nat.lt_of_le_of_lt (by simp) hlen
            · simp only [List.all_eq_true] at hall ⊢
              exact fun x hx => hall.2 x hx
            · rw [List.tails_cons, List.all_cons] at htails
              simp only [Bool.and_eq_true] at htails
              exact htails.2
          show (a == a && (b :: t'').isPrefixOf (d :: rest)) = true
          rw [hrec]
          simp

theorem sentNotPrefixSingle (x : Char) :
    GATORGRADER_REPLACEMENT.isPrefixOf [x] = false := by
  simp [GATORGRADER_REPLACEMENT, SENTtail, List.isPrefixOf]

theorem sentNotPrefixSpace (W : List Char) :
    GATORGRADER_REPLACEMENT.isPrefixOf (' ' :: W) = false := by
  simp [GATORGRADER_REPLACEMENT, List.isPrefixOf]

theorem normEq : ∀ s : List Char, sentFree s = true →
    normalizeNewlines s = directNormalize s
  | [], _ => rfl
  | [c], _ => by
    show restoreSentinel (List.map nlToSpace (replaceDoubleNL [c])) = directNormalize [c]
    rw [show replaceDoubleNL [c] = [c] from rfl]
    simp only [List.map_cons, List.map_nil]
    rw [restoreSentinel_cons (nlToSpace c) [] (sentNotPrefixSingle (nlToSpace c))]
    by_cases hc : c = '\n'
    · subst hc
      rfl
    · simp [nlToSpace, directNormalize, hc, restoreSentinel, restoreGo]
  | c :: d :: rest, h => by
    obtain ⟨h1, h2⟩ := sentFree_parts c (d :: rest) h
    obtain ⟨h2a, h2b⟩ := sentFree_parts d rest h2
    by_cases hcd : c = '\n' ∧ d = '\n'
    · obtain ⟨rfl, rfl⟩ := hcd
      show restoreSentinel (List.map nlToSpace (replaceDoubleNL ('\n' :: '\n' :: rest))) = _
      rw [replaceDoubleNL, if_pos (by simp)]
      rw [List.map_append, mapSENT, restoreSent_append]
      rw [show directNormalize ('\n' :: '\n' :: rest) = '\n' :: '\n' :: directNormalize rest
        from by simp [directNormalize]]
      exact congrArg (fun l => '\n' :: '\n' :: l) (normEq rest h2b)
    · by_cases hcn : c = '\n'
      · subst hcn
        have hdn : ¬ d = '\n' := fun hd => hcd ⟨rfl, hd⟩
        show restoreSentinel (List.map nlToSpace (replaceDoubleNL ('\n' :: d :: rest))) = _
        rw [replaceDoubleNL, if_neg hcd]
        simp only [List.map_cons]
        rw [show nlToSpace '\n' = ' ' from rfl]
        rw [restoreSentinel_cons ' ' _ (sentNotPrefixSpace _)]
        rw [show directNormalize ('\n' :: d :: rest) = ' ' :: directNormalize (d :: rest)
          from by simp [directNormalize, hdn]]
        exact congrArg (fun l => ' ' :: l) (normEq (d :: rest) h2)
      · show restoreSentinel (List.map nlToSpace (replaceDoubleNL (c :: d :: rest))) = _
        rw [replaceDoubleNL, if_neg hcd]
        simp only [List.map_cons]
        rw [show nlToSpace c = c from by simp [nlToSpace, hcn]]
        have hnp : GATORGRADER_REPLACEMENT.isPrefixOf
            (c :: List.map nlToSpace (replaceDoubleNL (d :: rest))) = false := by
          cases hcon : GATORGRADER_REPLACEMENT.isPrefixOf
              (c :: List.map nlToSpace (replaceDoubleNL (d :: rest))) with
          | false => rfl
          | true =>
            have hdec : (('G' == c) && SENTtail.isPrefixOf
                (List.map nlToSpace (replaceDoubleNL (d :: rest)))) = true := hcon
            rw [Bool.and_eq_true] at hdec
            obtain ⟨hg, htl⟩ := hdec
            have hmid := midTransfer (d :: rest) SENTtail (by decide) (by decide)
              (by decide) (by decide) htl
            have hall : GATORGRADER_REPLACEMENT.isPrefixOf (c :: d :: rest) = true := by
              show (('G' == c) && SENTtail.isPrefixOf (d :: rest)) = true
              rw [Bool.and_eq_true]
              exact ⟨hg, hmid⟩
            rw [hall] at h1
            exact absurd h1 (by simp)
        rw [restoreSentinel_cons c _ hnp]
        rw [show directNormalize (c :: d :: rest) = c :: directNormalize (d :: rest)
          from by simp [directNormalize, hcn]]
        exact congrArg (fun l => c :: l) (normEq (d :: rest) h2)

/-- Counterexample to claim C1 as stated: the sentinel CAN occur in the
input. On the input "GATORGRADER_REPLACEMENT" itself (which contains no
newline at all, so the described transformation would leave it unchanged),
the replace sequence of `get_paragraphs` instead produces a double
newline. -/
theorem claim_C1_counterexample :
    ¬ (normalizeNewlines GATORGRADER_REPLACEMENT
        = directNormalize GATORGRADER_REPLACEMENT) := by
  decide

/-- Claim C1 amended: for every input in which the literal sentinel string
"GATORGRADER_REPLACEMENT" does not occur, the replace-with-sentinel /
replace-single-newline-with-space / restore-sentinel sequence of
`get_paragraphs` produces exactly the input with each left-to-right pair
of consecutive newlines preserved and each remaining single newline
replaced by a space, with no other change. -/
theorem claim_C1_amended (s : List Char) (h : sentFree s = true) :
    normalizeNewlines s = directNormalize s := normEq s h

/-- Witness for the amended C1 on a sentinel-free input with single,
double and triple newlines. -/
theorem claim_C1_witness :
    normalizeNewlines "a\nb\n\nc\n\n\nd".toList
      = directNormalize "a\nb\n\nc\n\n\nd".toList :=
  claim_C1_amended _ (by decide)

/-! ### Single-paragraph machinery (C7) -/

theorem nlToSpace_ne_nl (x : Char) : (!(nlToSpace x = '\n')) = true := by
  by_cases hx : x = '\n'
  · subst hx
    decide
  · simp [nlToSpace, hx]

theorem mapNoNl (c : List Char) :
    (List.map nlToSpace c).all (fun ch => !(ch = '\n')) = true := by
  rw [List.all_eq_true]
  intro x hx
  obtain ⟨y, _, rfl⟩ := List.mem_map.mp hx
  exact nlToSpace_ne_nl y

theorem findParasGo_all : ∀ (w acc : List Char),
    w.all (fun ch => !(ch = '\n')) = true → acc ≠ [] →
    findParasGo acc w = [acc.reverse ++ w]
  | [], acc, _, hacc => by
    simp only [findParasGo, List.append_nil]
    rw [if_neg (by simpa using hacc)]
  | [c], acc, hall, hacc => by
    simp only [List.all_cons, Bool.and_eq_true, Bool.not_eq_true',
      decide_eq_false_iff_not] at hall
    simp only [findParasGo]
    rw [if_neg hall.1]
    simp
  | c :: d :: rest, acc, hall, hacc => by
    have hc : ¬ c = '\n' := by
      simp only [List.all_cons, Bool.and_eq_true, Bool.not_eq_true',
        decide_eq_false_iff_not] at hall
      exact hall.1
    have hall' : (d :: rest).all (fun ch => !(ch = '\n')) = true := by
      simp only [List.all_cons, Bool.and_eq_true] at hall ⊢
      exact hall.2
    simp only [findParasGo]
    rw [if_neg hc]
    rw [findParasGo_all (d :: rest) (c :: acc) hall' (by simp)]
    simp

theorem findParasGo_single (w : List Char)
    (hall : w.all (fun ch => !(ch = '\n')) = true) (hw : w ≠ []) :
    findParasGo [] w = [w] := by
  cases w with
  | nil => exact absurd rfl hw
  | cons c rest =>
    cases rest with
    | nil =>
      simp only [List.all_cons, Bool.and_eq_true, Bool.not_eq_true',
        decide_eq_false_iff_not] at hall
      simp only [findParasGo]
      rw [if_neg hall.1]
      simp
    | cons d r =>
      have hc : ¬ c = '\n' := by
        simp only [List.all_cons, Bool.and_eq_true, Bool.not_eq_true',
          decide_eq_false_iff_not] at hall
        exact hall.1
      have hall' : (d :: r).all (fun ch => !(ch = '\n')) = true := by
        simp only [List.all_cons, Bool.and_eq_true] at hall ⊢
        exact hall.2
      simp only [findParasGo]
      rw [if_neg hc]
      rw [findParasGo_all (d :: r) [c] hall' (by simp)]
      simp

theorem nlToSpace_pyIsSpace (ch : Char) : pyIsSpace (nlToSpace ch) = pyIsSpace ch := by
  by_cases hc : ch = '\n'
  · subst hc
    decide
  · simp [nlToSpace, hc]

theorem dropWhile_map_nl : ∀ l : List Char,
    List.dropWhile pyIsSpace (List.map nlToSpace l)
      = List.map nlToSpace (List.dropWhile pyIsSpace l)
  | [] => rfl
  | a :: l => by
    simp only [List.map_cons, List.dropWhile_cons, nlToSpace_pyIsSpace a]
    by_cases hp : pyIsSpace a = true
    · simp [hp, dropWhile_map_nl l]
    · simp only [Bool.not_eq_true] at hp
      simp [hp]

theorem strip_map (c : List Char) :
    pyStrip (List.map nlToSpace c) = List.map nlToSpace (pyStrip c) := by
  rw [pyStrip, pyStrip, dropWhile_map_nl, ← List.map_reverse, dropWhile_map_nl,
    ← List.map_reverse]

theorem is_paragraph_map (c : List Char)
    (hhead : (pyStrip c).head? ≠ some '#')
    (hfence : CODE_FENCE_MARKER.isPrefixOf (pyStrip c) = false) :
    is_paragraph (List.map nlToSpace c) = true := by
  rw [is_paragraph]
  have hs : SECTION_MARKER.isPrefixOf (pyStrip (List.map nlToSpace c)) = false := by
    cases hcon : SECTION_MARKER.isPrefixOf (pyStrip (List.map nlToSpace c)) with
    | false => rfl
    | true =>
      have hh := (singletonPrefixIffHead '#' _).mp hcon
      rw [strip_map, List.head?_map] at hh
      obtain ⟨x, hx, hfx⟩ := Option.map_eq_some'.mp hh
      have hxh : x = '#' := by
        by_cases hxn : x = '\n'
        · subst hxn
          simp [nlToSpace] at hfx
        · simpa [nlToSpace, hxn] using hfx
      subst hxh
      exact absurd hx hhead
  have hf : CODE_FENCE_MARKER.isPrefixOf (pyStrip (List.map nlToSpace c)) = false := by
    cases hcon : CODE_FENCE_MARKER.isPrefixOf (pyStrip (List.map nlToSpace c)) with
    | false => rfl
    | true =>
      rw [strip_map] at hcon
      have := mapPrefixTransfer CODE_FENCE_MARKER (pyStrip c) (by decide) hcon
      rw [this] at hfence
      exact absurd hfence (by simp)
  rw [hs, hf]
  simp

/-- Counterexample to claim C7 as stated: a wrapped single paragraph
"a\nb" (no double newline, no marker) yields the candidate "a b", whose
trimmed form is not the trimmed input; and the double-newline-free,
marker-free input "GATORGRADER_REPLACEMENT" yields no candidate at all
instead of exactly one. -/
theorem claim_C7_counterexample :
    (get_paragraphs "a\nb".toList false = ["a b".toList] ∧
      ¬ (pyStrip "a b".toList = pyStrip "a\nb".toList)) ∧
    get_paragraphs GATORGRADER_REPLACEMENT false = [] := by
  decide

/-- Claim C7 amended: for every nonempty content with no double newline,
no occurrence of the sentinel string, and no leading header or code-fence
marker after trimming, the segmenter (`get_paragraphs` with
`blank_replace = false`) yields exactly one candidate: the input with
each newline replaced by a space; trimming that candidate is the same as
replacing newlines by spaces in the trimmed input. -/
theorem claim_C7_amended (c : List Char) (hne : c ≠ [])
    (hdnl : dnlFree c = true) (hsent : sentFree c = true)
    (hhead : (pyStrip c).head? ≠ some '#')
    (hfence : CODE_FENCE_MARKER.isPrefixOf (pyStrip c) = false) :
    get_paragraphs c false = [List.map nlToSpace c] ∧
    pyStrip (List.map nlToSpace c) = List.map nlToSpace (pyStrip c) := by
  constructor
  · show (findParasGo []
        (restoreSentinel (List.map nlToSpace (replaceDoubleNL c)))).filter
        (fun p => is_paragraph p) = _
    rw [dnl_id c hdnl]
    rw [restore_id _ (sentFree_map c hsent)]
    rw [findParasGo_single _ (mapNoNl c)
      (fun hm => hne (List.map_eq_nil_iff.mp hm))]
    simp [List.filter, is_paragraph_map c hhead hfence]
  · exact strip_map c

/-- Witness for the amended C7 on a concrete wrapped paragraph. -/
theorem claim_C7_witness :
    get_paragraphs "Hello\nthere ".toList false
      = [List.map nlToSpace "Hello\nthere ".toList] ∧
    pyStrip (List.map nlToSpace "Hello\nthere ".toList)
      = List.map nlToSpace (pyStrip "Hello\nthere ".toList) :=
  claim_C7_amended "Hello\nthere ".toList (by decide) (by decide) (by decide)
    (by decide) (by decide)
